import Mathlib

/-!
Verification of the channel synchronisation script `scripts/sync_channels.py`.

The script is embedded shallowly: text content is modelled as `List Char`
(Python strings), Python `None`-or-string values as `Option (List Char)`,
and each method of the `ChannelSync` class as a Lean function of the same
name.  Python's regular-expression operations are modelled by explicit
deterministic scanners that implement exactly the patterns appearing in the
source (all sub-patterns of those regexes are deterministic, so the scanners
coincide with `re.search`/`re.sub` semantics on them).
-/

set_option maxRecDepth 4096

/-- Characters of a string literal, used to write Python string constants. -/
def chars (s : String) : List Char := s.data

/-- A line of a text document (never containing a newline when produced by
`splitLines`). -/
abbrev Line := List Char

/-- Whitespace characters stripped by Python's `str.strip()` (ASCII range,
which is all the script's data contains). -/
def pyWS (c : Char) : Bool :=
  c = ' ' || c = '\t' || c = '\n' || c = '\r' || c = '\x0b' || c = '\x0c'

/-- Python `s.split('\n')`: `""` gives `[""]`, separators are not kept. -/
def splitLines : List Char → List Line
  | [] => [[]]
  | c :: rest =>
    if c = '\n' then [] :: splitLines rest
    else
      match splitLines rest with
      | l :: ls => (c :: l) :: ls
      | [] => [[c]]

/-- Inverse of `splitLines`: join lines with `'\n'`. -/
def joinLines : List Line → List Char
  | [] => []
  | [l] => l
  | l :: ls => l ++ '\n' :: joinLines ls

/-- Python `s.lstrip()`. -/
def lstripWS (s : List Char) : List Char := s.dropWhile pyWS

/-- Python `s.rstrip()`. -/
def rstripWS : List Char → List Char
  | [] => []
  | c :: t =>
    let r := rstripWS t
    if r.isEmpty && pyWS c then [] else c :: r

/-- Python `s.strip()`. -/
def pyStrip (s : List Char) : List Char := lstripWS (rstripWS s)

/-- Python `pat in s` (substring containment). -/
def containsSub (pat : List Char) : List Char → Bool
  | [] => pat.isEmpty
  | c :: rest => pat.isPrefixOf (c :: rest) || containsSub pat rest

/-! ## `ChannelSync.extract_channel_id_from_epg`

The method searches the raw EPG text with the regex
`<channel id="([^"]+)"[^>]*>\s*<display-name>{epg_match}</display-name>`
(and a second variant without the `[^>]*` part).  Every sub-pattern is
deterministic: `[^"]+` must stop at the next `"`, `[^>]*` at the next `>`,
`\s*` at the next non-whitespace character (the following literal starts
with `<`).  `matchChannelAt` implements an anchored match attempt at the
head of the text and `searchChannel` the left-to-right scan of `re.search`.
-/

/-- Try to match the channel regex at the head of `s`; `attrs` selects the
variant with the `[^>]*` attribute part.  Returns the captured id. -/
def matchChannelAt (attrs : Bool) (em : List Char) (s : List Char) :
    Option (List Char) :=
  if (chars "<channel id=\"").isPrefixOf s then
    let s1 := s.drop (chars "<channel id=\"").length
    let idGrp := s1.takeWhile (fun c => c != '"')
    if idGrp.isEmpty then none
    else
      let s2 := s1.drop idGrp.length
      -- s2 must begin with the closing quote
      match s2 with
      | '"' :: s3 =>
        let s4 :=
          if attrs then
            let mid := s3.takeWhile (fun c => c != '>')
            (s3.drop mid.length : List Char)
          else s3
        match s4 with
        | '>' :: s5 =>
          let s6 := s5.dropWhile pyWS
          if (chars "<display-name>" ++ em ++ chars "</display-name>").isPrefixOf s6 then
            some idGrp
          else none
        | _ => none
      | _ => none
  else none

/-- Left-to-right `re.search` over the text for the channel pattern. -/
def searchChannel (attrs : Bool) (em : List Char) : List Char → Option (List Char)
  | [] => none
  | c :: rest =>
    match matchChannelAt attrs em (c :: rest) with
    | some id => some id
    | none => searchChannel attrs em rest

/-- `ChannelSync.extract_channel_id_from_epg` (lines 95-113 of the source):
guard against an empty EPG document, then try the two regex patterns in
order. -/
def extract_channel_id_from_epg (koreatv_epg : List Char) (epg_match : List Char) :
    Option (List Char) :=
  if koreatv_epg = [] then none
  else
    match searchChannel true epg_match koreatv_epg with
    | some id => some id
    | none => searchChannel false epg_match koreatv_epg

/-- The listings document of claim C1: one channel entry with id `ch1` and
display name `KBS 1TV`. -/
def epgDocC1 : List Char :=
  chars "<channel id=\"ch1\"><display-name>KBS 1TV</display-name></channel>"

/-! ## `ChannelSync.extract_info_from_json`

An entry of the primary catalog `koreatv.json`.  Fields are `Option`s where
the Python code uses `dict.get` with a `None` default; `uris` defaults to
`[]` and `logo` is read with default `''` at the use site. -/

structure CatalogEntry where
  name : Option (List Char)
  uris : List (List Char)
  url : Option (List Char)
  logo : Option (List Char)
deriving DecidableEq

/-- Scan of the catalog list: first entry whose `name` equals `json_match`
wins; its url is `uris[0]` if `uris` is non-empty, else its `url` field. -/
def jsonScan (json_match : List Char) :
    List CatalogEntry → Option (List Char) × Option (List Char)
  | [] => (none, none)
  | e :: rest =>
    if e.name = some json_match then
      (match e.uris with
       | u :: _ => some u
       | [] => e.url,
       some (e.logo.getD []))
    else jsonScan json_match rest

/-- `ChannelSync.extract_info_from_json` (lines 115-134 of the source):
guard against an empty (or failed-fetch) catalog, then scan. -/
def extract_info_from_json (koreatv_json : List CatalogEntry) (json_match : List Char) :
    Option (List Char) × Option (List Char) :=
  if koreatv_json = [] then (none, none)
  else jsonScan json_match koreatv_json

/-! ## `ChannelSync.extract_info_from_backup` -/

/-- The playlist descriptor marker `#EXTINF:`. -/
def extinfMarker : List Char := chars "#EXTINF:"

/-- A descriptor line of the fallback document matching `backup_match`:
the line starts with the descriptor marker and contains the match text. -/
def isBackupHit (backup_match l : List Char) : Bool :=
  extinfMarker.isPrefixOf l && containsSub backup_match l

/-- `re.search(r'tvg-logo="([^"]+)"', line)`: left-to-right scan; at each
position the literal `tvg-logo="` must match, followed by a non-empty run
of non-quote characters and a closing quote. -/
def tvgLogoScan : List Char → Option (List Char)
  | [] => none
  | c :: rest =>
    if (chars "tvg-logo=\"").isPrefixOf (c :: rest) then
      let after := (c :: rest).drop (chars "tvg-logo=\"").length
      let grp := after.takeWhile (fun x => x != '"')
      if !grp.isEmpty && grp.length < after.length then some grp
      else tvgLogoScan rest
    else tvgLogoScan rest

/-- `logo_match.group(1) if logo_match else ''`. -/
def tvgLogoVal (l : List Char) : List Char := (tvgLogoScan l).getD []

/-- The loop of `extract_info_from_backup`: find the first descriptor line
containing the match text; if it has a following line, return that line
(verbatim) together with the logo extracted from the descriptor line.  When
the hit is the last line, the `i + 1 < len(lines)` guard fails and the loop
simply ends. -/
def backupScan (backup_match : List Char) :
    List Line → Option (List Char × List Char)
  | [] => none
  | l :: rest =>
    if isBackupHit backup_match l then
      match rest with
      | nxt :: _ => some (nxt, tvgLogoVal l)
      | [] => backupScan backup_match rest
    else backupScan backup_match rest

/-- `ChannelSync.extract_info_from_backup` (lines 136-157 of the source). -/
def extract_info_from_backup (backup_m3u : List Char) (backup_match : List Char) :
    Option (List Char) × Option (List Char) :=
  if backup_m3u = [] then (none, none)
  else
    match backupScan backup_match (splitLines backup_m3u) with
    | some (u, lg) => (some u, some lg)
    | none => (none, none)

/-! ## `ChannelSync.process_channels` -/

/-- One entry of the `channels` configuration list.  `name`, `json_match`
and `epg_match` are accessed with `channel[...]` (required); the other
fields use `channel.get(...)` with defaults `''`, `False` and `json_match`
respectively, modelled by `Option`s resolved inside `process_channels`. -/
structure ChannelConfig where
  name : List Char
  json_match : List Char
  epg_match : List Char
  default_id : Option (List Char)
  backup_source : Bool
  backup_match : Option (List Char)
deriving DecidableEq

/-- The three fetched data sources held by the `ChannelSync` instance; a
failed fetch leaves the list empty resp. the text empty. -/
structure SyncData where
  koreatv_json : List CatalogEntry
  koreatv_epg : List Char
  backup_m3u : List Char
deriving DecidableEq

/-- The per-channel result dictionary.  A failed channel's dictionary holds
only `name` and `success`, modelled by `none` in the other fields. -/
structure ChannelResult where
  name : List Char
  channel_id : Option (List Char)
  url : Option (List Char)
  logo : Option (List Char)
  success : Bool
deriving DecidableEq

/-- Python truthiness of a `None`-or-string value: `None` and `''` are
falsy. -/
def pyTruthy : Option (List Char) → Bool
  | some (_ :: _) => true
  | _ => false

/-- The literal string `"null"` that the script treats as absent. -/
def nullStr : List Char := chars "null"

/-- `not v or v == 'null'`: the value is unusable as a url/logo. -/
def isNullish (v : Option (List Char)) : Bool :=
  !pyTruthy v || decide (v = some nullStr)

/-- The body of the `for channel in self.channels_config` loop of
`ChannelSync.process_channels` (lines 163-221 of the source). -/
def processOne (d : SyncData) (ch : ChannelConfig) : ChannelResult :=
  let default_id := ch.default_id.getD []
  let backup_match := ch.backup_match.getD ch.json_match
  -- step 1: channel id from the EPG, falling back to the default
  let epgId := extract_channel_id_from_epg d.koreatv_epg ch.epg_match
  let channel_id :=
    match epgId with
    | some i => if i = [] then default_id else i
    | none => default_id
  -- step 2: url and logo from the primary catalog
  let p := extract_info_from_json d.koreatv_json ch.json_match
  -- step 3: fallback source when the primary url is unusable
  let q :=
    if isNullish p.1 && ch.backup_source then
      let b := extract_info_from_backup d.backup_m3u backup_match
      if pyTruthy b.1 then
        (b.1, if pyTruthy b.2 && isNullish p.2 then b.2 else p.2)
      else p
    else p
  -- step 4: normalise the literal string "null" to absent
  let urlF := if isNullish q.1 then none else q.1
  let logoF := if isNullish q.2 then some [] else q.2
  -- step 5: build the result dictionary
  match urlF with
  | some u =>
    { name := ch.name, channel_id := some channel_id, url := some u,
      logo := logoF, success := true }
  | none =>
    { name := ch.name, channel_id := none, url := none, logo := none,
      success := false }

/-- `ChannelSync.process_channels`: one result per configured channel, in
configuration order. -/
def process_channels (d : SyncData) (cfgs : List ChannelConfig) : List ChannelResult :=
  cfgs.map (processOne d)

/-! ## `ChannelSync.update_m3u_file`

The update works on the whole file content as a string.  It runs a
deduplication pass over the lines, merges each successful channel in with
two `re.sub` calls (or appends it), runs the deduplication pass again,
strips the result and prepends the `#EXTM3U` header if missing.
-/

/-- `re.search(r',([^,]+)$', line)` followed by `.strip()`: the channel
name is the stripped text after the last comma, provided the line contains
a comma and at least one character follows it. -/
def extinfName (l : List Char) : Option (List Char) :=
  let seg := (l.reverse.takeWhile (fun c => c != ',')).reverse
  if seg.length < l.length && !seg.isEmpty then some (pyStrip seg) else none

/-- The channel-name label of a descriptor line (`none` for any line that
does not start with `#EXTINF:` or has no extractable name). -/
def extinfLabel (l : List Char) : Option (List Char) :=
  if extinfMarker.isPrefixOf l then extinfName l else none

/-- The line marker `http` starting a URL line. -/
def httpMarker : List Char := chars "http"

/-- The sentinel value `'skip'` the source stores in `current_extinf` while
dropping a duplicate channel's URL line. -/
def skipSentinel : List Char := chars "skip"

/-- The deduplication pass of `update_m3u_file` (it appears twice verbatim
in the source, lines 237-263 and 308-331): walk the lines keeping the first
descriptor line per extracted channel name, dropping later duplicates
together with their following `http` line. -/
def cleanLines : List Line → List Line → Option (List Char) → List Line
  | [], _, _ => []
  | l :: rest, seen, cur =>
    if extinfMarker.isPrefixOf l then
      match extinfName l with
      | some nm =>
        if nm ∈ seen then cleanLines rest seen (some skipSentinel)
        else l :: cleanLines rest (nm :: seen) (some nm)
      | none => l :: cleanLines rest seen cur
    else if httpMarker.isPrefixOf l then
      if cur = some skipSentinel then cleanLines rest seen none
      else l :: cleanLines rest seen none
    else l :: cleanLines rest seen cur

/-- The `#EXTINF` line built for a successful channel: logo attribute only
when the logo string is truthy. -/
def extinfLineFor (channel_id logo name : List Char) : List Char :=
  chars "#EXTINF:-1 tvg-id=\"" ++ channel_id ++
    (if logo.isEmpty then chars "\"" else chars "\" tvg-logo=\"" ++ logo ++ chars "\"") ++
    ',' :: name

/-- A line matched by the regex `#EXTINF:[^\n]*,{re.escape(name)}` (the
line part of both substitution patterns): it ends with `,{name}` and an
occurrence of `#EXTINF:` appears somewhere before that suffix. -/
def lineMatches (name l : List Char) : Bool :=
  (',' :: name).isSuffixOf l &&
    containsSub extinfMarker (l.take (l.length - (name.length + 1)))

/-- The prefix of a line before its leftmost `#EXTINF:` occurrence (the
part a substitution leaves in place, since the match starts at the
marker). -/
def preMarker : List Char → List Char
  | [] => []
  | c :: rest =>
    if extinfMarker.isPrefixOf (c :: rest) then [] else c :: preMarker rest

/-- `re.search` of the pattern `#EXTINF:[^\n]*,{name}\n` on the joined
content: some non-last line matches the line part (the trailing `\n`
requires a following line). -/
def hasPattern (name : List Char) : List Line → Bool
  | [] => false
  | l :: rest => (!rest.isEmpty && lineMatches name l) || hasPattern name rest

/-- First `re.sub`: every non-last matching line is rewritten from its
marker to its end into the fresh descriptor line (the `\n` of the pattern
is restored by the replacement, so the line structure is unchanged). -/
def subExtinf (name eline : List Char) : List Line → List Line
  | [] => []
  | [l] => [l]
  | l :: rest =>
    (if lineMatches name l then preMarker l ++ eline else l) :: subExtinf name eline rest

/-- Second `re.sub`, pattern `(#EXTINF:[^\n]*,{name})\n[^\n]*\n`: a
matching line whose next line is itself followed by a newline is rewritten
together with that next line into descriptor line plus url; scanning
resumes after the consumed region (replacement text is not rescanned). -/
def subUrl (name eline url : List Char) : List Line → List Line
  | [] => []
  | [l] => [l]
  | [l1, l2] => [l1, l2]
  | l1 :: l2 :: l3 :: rest =>
    if lineMatches name l1 then
      (preMarker l1 ++ eline) :: url :: subUrl name eline url (l3 :: rest)
    else l1 :: subUrl name eline url (l2 :: l3 :: rest)

/-- Merging one successful channel into the content (the body of the
`for channel in channel_results` loop, lines 269-305 of the source). -/
def mergeOne (content : List Char) (r : ChannelResult) : List Char :=
  let name := r.name
  let channel_id := r.channel_id.getD []
  let url := r.url.getD []
  let logo := r.logo.getD []
  let eline := extinfLineFor channel_id logo name
  if hasPattern name (splitLines content) then
    joinLines (subUrl name eline url
      (splitLines (joinLines (subExtinf name eline (splitLines content)))))
  else
    content ++ '\n' :: '\n' :: (eline ++ '\n' :: url)

/-- `ChannelSync.update_m3u_file` (lines 225-344 of the source), returning
the content written to `kr.m3u`.  `existing` is the current file content,
`none` when the file does not exist. -/
def update_m3u_file (existing : Option (List Char)) (results : List ChannelResult) :
    List Char :=
  let content := existing.getD (chars "#EXTM3U\n")
  let newContent := pyStrip (joinLines (cleanLines (splitLines content) [] none))
  let merged := results.foldl
    (fun c r => if r.success then mergeOne c r else c) newContent
  let finalContent := pyStrip (joinLines (cleanLines (splitLines merged) [] none))
  if (chars "#EXTM3U").isPrefixOf finalContent then finalContent
  else chars "#EXTM3U\n" ++ finalContent

/-! ## `ChannelSync.run` and the process exit status -/

/-- `ChannelSync.run` (lines 352-378) together with the `__main__` block:
returns the exit status passed to `sys.exit` and the final state of the
output document (`update_m3u_file` is only invoked when at least one
channel succeeded; the model's pure write always succeeds). -/
def runSync (d : SyncData) (cfgs : List ChannelConfig) (existing : Option (List Char)) :
    Nat × Option (List Char) :=
  let channel_results := process_channels d cfgs
  let success_count := (channel_results.filter (fun c => c.success)).length
  if success_count > 0 then (0, some (update_m3u_file existing channel_results))
  else (1, existing)

/-! ## Spec-side definition for the fallback lookup

Modelled from the spec: §4.4 states that the URL of a fallback hit is "the
next non-empty line" after the matching descriptor line.  This definition
follows those words (it differs from `backupScan`, which takes the next
line verbatim); claim C6 compares the two. -/

/-- Spec wording of the fallback scan: skip empty lines after the hit. -/
def backupScanSpecNonEmpty (backup_match : List Char) :
    List Line → Option (List Char × List Char)
  | [] => none
  | l :: rest =>
    if isBackupHit backup_match l then
      match rest.dropWhile (fun x => x.isEmpty) with
      | nxt :: _ => some (nxt, tvgLogoVal l)
      | [] => none
    else backupScanSpecNonEmpty backup_match rest

/-- Spec wording of `extract_info_from_backup` (URL = next non-empty
line). -/
def extract_info_from_backup_specNonEmpty (backup_m3u : List Char)
    (backup_match : List Char) : Option (List Char) × Option (List Char) :=
  if backup_m3u = [] then (none, none)
  else
    match backupScanSpecNonEmpty backup_match (splitLines backup_m3u) with
    | some (u, lg) => (some u, some lg)
    | none => (none, none)

/-! ## Auxiliary notions for the uniqueness invariant (claim C2) -/

/-- A line consisting solely of whitespace (possibly empty). -/
def allWs (l : Line) : Bool := l.all pyWS

/-- The leading all-whitespace lines of a document are followed by a line
starting with a non-whitespace character (or nothing at all).  `strip()`
can then only delete whole leading lines, never uncover a new descriptor
line. -/
def goodStart (L : List Line) : Prop :=
  match L.dropWhile allWs with
  | [] => True
  | l :: _ => ∃ c r, l = c :: r ∧ pyWS c = false

/-- `goodStart` of a document given as a string. -/
def goodStartC (s : List Char) : Prop := goodStart (splitLines s)

/-! ## Concrete fixtures used in scenario claims and witnesses -/

/-- Data sources of the C7 scenario: empty listings document, primary
catalog with a single `MBC` entry. -/
def mbcData : SyncData :=
  { koreatv_json :=
      [{ name := some (chars "MBC"), uris := [],
         url := some (chars "http://x/mbc.m3u8"), logo := none }],
    koreatv_epg := [], backup_m3u := [] }

/-- Channel configuration of the C7 scenario. -/
def mbcConfig : ChannelConfig :=
  { name := chars "MBC", json_match := chars "MBC", epg_match := chars "MBC1",
    default_id := some (chars "mbc.kr"), backup_source := false,
    backup_match := none }

/-- A channel configuration that cannot resolve against empty sources,
used by witnesses. -/
def failConfig : ChannelConfig :=
  { name := chars "KBS", json_match := chars "KBS", epg_match := chars "KBS",
    default_id := none, backup_source := false, backup_match := none }

/-- Empty data sources (all three fetches failed), used by witnesses. -/
def emptyData : SyncData :=
  { koreatv_json := [], koreatv_epg := [], backup_m3u := [] }

/-- Data sources of the C4 witness: primary catalog url is the literal
string `"null"`, fallback document provides a real URL. -/
def nullUrlData : SyncData :=
  { koreatv_json :=
      [{ name := some (chars "KBS"), uris := [], url := some (chars "null"),
         logo := none }],
    koreatv_epg := [],
    backup_m3u := chars "#EXTINF:-1,KBS\nhttp://backup/kbs.m3u8" }

/-- Channel configuration of the C4 witness (backup enabled). -/
def backupConfig : ChannelConfig :=
  { name := chars "KBS", json_match := chars "KBS", epg_match := chars "KBS",
    default_id := none, backup_source := true, backup_match := none }


/-- The channel id of step 1 of `process_channels`: the EPG id when it is
truthy, else the configured default id, else the empty string. -/
def resolved_channel_id (d : SyncData) (ch : ChannelConfig) : List Char :=
  match extract_channel_id_from_epg d.koreatv_epg ch.epg_match with
  | some i => if i = [] then ch.default_id.getD [] else i
  | none => ch.default_id.getD []

/-- The url/logo pair after steps 2-3 of `process_channels` (primary
lookup, then fallback when the primary url is unusable and backup is
enabled). -/
def resolvedPair (d : SyncData) (ch : ChannelConfig) :
    Option (List Char) × Option (List Char) :=
  let p := extract_info_from_json d.koreatv_json ch.json_match
  if isNullish p.1 && ch.backup_source then
    let b := extract_info_from_backup d.backup_m3u (ch.backup_match.getD ch.json_match)
    if pyTruthy b.1 then
      (b.1, if pyTruthy b.2 && isNullish p.2 then b.2 else p.2)
    else p
  else p

/-! # Theorems -/

/-! ## Basic facts about lines -/

theorem splitLines_ne_nil (s : List Char) : splitLines s ≠ [] := by
  induction s with
  | nil => simp [splitLines]
  | cons c rest ih =>
    simp only [splitLines]
    split
    · simp
    · cases h : splitLines rest with
      | nil => exact absurd h ih
      | cons l ls => simp

/-! ## Claim C1: the whitespace-normalized matching strategy -/

/-- Claim C1 is false on the code: for the listings document with the single
entry `id="ch1"`, `display-name = "KBS 1TV"`, resolving the query `"KBS1"`
does not return `"ch1"` — `extract_channel_id_from_epg` performs only an
exact (regex-literal) display-name match and returns nothing here; there is
no whitespace-normalized strategy in the source. -/
theorem c1_whitespace_strategy_cex :
    extract_channel_id_from_epg epgDocC1 (chars "KBS1") = none ∧
    extract_channel_id_from_epg epgDocC1 (chars "KBS1") ≠ some (chars "ch1") := by
  decide

/-- Claim C1 (amended): for a listings document containing exactly one
channel entry with id `ch1` and display name `KBS 1TV`, resolving the query
`"KBS1"` (no space) returns no identifier, because the matcher supports
only exact display-name matching; the exact query `"KBS 1TV"` does resolve
to `"ch1"`. -/
theorem c1_exact_match_only :
    extract_channel_id_from_epg epgDocC1 (chars "KBS 1TV") = some (chars "ch1") ∧
    extract_channel_id_from_epg epgDocC1 (chars "KBS1") = none := by
  decide

/-! ## Claims C6 and C9: the fallback lookup -/

/-- If no line before the last one is a fallback hit, the scan finds
nothing: a hit on the last line fails the `i + 1 < len(lines)` guard and
the loop runs out. -/
theorem backupScan_eq_none_of_no_early_hit (mt : List Char) :
    ∀ L : List Line,
      (∀ j (hj : j + 1 < L.length), isBackupHit mt (L.get ⟨j, by omega⟩) = false) →
      backupScan mt L = none
  | [], _ => rfl
  | [l], _ => by
    simp only [backupScan]
    split <;> rfl
  | l :: l2 :: rest, h => by
    have h0 : isBackupHit mt l = false := h 0 (by simp)
    simp only [backupScan, h0, Bool.false_eq_true, if_false]
    exact backupScan_eq_none_of_no_early_hit mt (l2 :: rest)
      (fun j hj => h (j + 1) (by simpa using hj))

/-- The scan returns the line after the first hit, verbatim, together with
the logo extracted from the hit line. -/
theorem backupScan_first_hit (mt : List Char) :
    ∀ (L : List Line) (i : Nat) (hi : i < L.length),
      isBackupHit mt (L.get ⟨i, hi⟩) = true →
      (∀ j (hj : j < i), isBackupHit mt (L.get ⟨j, by omega⟩) = false) →
      ∀ (hnext : i + 1 < L.length),
        backupScan mt L = some (L.get ⟨i + 1, hnext⟩, tvgLogoVal (L.get ⟨i, hi⟩))
  | [], i, hi => by simp at hi
  | l :: rest, 0, hi => by
    intro hhit _ hnext
    cases rest with
    | nil => simp at hnext
    | cons nxt rest2 =>
      simp only [List.get] at hhit ⊢
      simp only [backupScan, hhit, if_true]
  | l :: rest, i + 1, hi => by
    intro hhit hbefore hnext
    have h0 : isBackupHit mt l = false := hbefore 0 (by omega)
    have ih := backupScan_first_hit mt rest i (by simpa using hi)
      (by simpa using hhit)
      (fun j hj => by
        have := hbefore (j + 1) (by omega)
        simpa using this)
      (by simpa using hnext)
    simp only [backupScan, h0, Bool.false_eq_true, if_false]
    simpa using ih

/-- Claim C6 is false on the code as regards the URL line: for the
fallback document `#EXTINF:-1,KBS\n\nhttp://x`, the first matching
descriptor line is followed by an empty line; the lookup returns that empty
line as the URL, while the spec's next-non-empty-line reading would return
`http://x`. -/
theorem c6_next_nonempty_cex :
    extract_info_from_backup (chars "#EXTINF:-1,KBS\n\nhttp://x") (chars "KBS")
        = (some [], some []) ∧
    extract_info_from_backup_specNonEmpty (chars "#EXTINF:-1,KBS\n\nhttp://x")
        (chars "KBS") = (some (chars "http://x"), some []) ∧
    (some ([] : List Char)) ≠ some (chars "http://x") := by
  decide

/-- Claim C6 (amended): the fallback lookup scans descriptor lines (lines
beginning with `#EXTINF:`) for the first one containing `match_text` as a
substring, returns as the URL the line immediately following that
descriptor line (even when it is empty), and extracts the logo from an
embedded `tvg-logo="..."` attribute on the descriptor line when present
(empty string otherwise).  Only the first match is used. -/
theorem c6_first_hit_next_line (doc mt : List Char) (hdoc : doc ≠ [])
    (i : Nat) (hi : i < (splitLines doc).length)
    (hhit : isBackupHit mt ((splitLines doc).get ⟨i, hi⟩) = true)
    (hbefore : ∀ j (hj : j < i),
      isBackupHit mt ((splitLines doc).get ⟨j, by omega⟩) = false)
    (hnext : i + 1 < (splitLines doc).length) :
    extract_info_from_backup doc mt =
      (some ((splitLines doc).get ⟨i + 1, hnext⟩),
       some (tvgLogoVal ((splitLines doc).get ⟨i, hi⟩))) := by
  have h := backupScan_first_hit mt (splitLines doc) i hi hhit hbefore hnext
  simp only [extract_info_from_backup, hdoc, if_false, h]

/-- Witness for the amended C6 at a concrete input: the descriptor line for
`KBS` carries a logo attribute and is followed directly by the URL line. -/
theorem c6_first_hit_next_line_witness :
    extract_info_from_backup
        (chars "#EXTINF:-1 tvg-logo=\"http://l.png\",KBS\nhttp://u\nrest") (chars "KBS")
      = (some (chars "http://u"), some (chars "http://l.png")) := by
  have h := c6_first_hit_next_line
    (chars "#EXTINF:-1 tvg-logo=\"http://l.png\",KBS\nhttp://u\nrest") (chars "KBS")
    (by decide) 0 (by decide) (by decide) (fun j hj => by omega) (by decide)
  simpa using h

/-- Claim C9: when the first (indeed only) matching descriptor line is the
last line of the fallback document, the lookup returns `(None, None)`: the
`i + 1 < len(lines)` bound check fails, no out-of-bounds access happens,
and the loop ends without a result. -/
theorem c9_hit_on_last_line (doc mt : List Char) (hdoc : doc ≠ [])
    (_hlast : isBackupHit mt ((splitLines doc).getLast (splitLines_ne_nil doc)) = true)
    (hbefore : ∀ j (hj : j + 1 < (splitLines doc).length),
      isBackupHit mt ((splitLines doc).get ⟨j, by omega⟩) = false) :
    extract_info_from_backup doc mt = (none, none) := by
  have h := backupScan_eq_none_of_no_early_hit mt (splitLines doc) hbefore
  simp only [extract_info_from_backup, hdoc, if_false, h]

/-- Witness for C9: a document whose single line is a matching descriptor
line. -/
theorem c9_hit_on_last_line_witness :
    extract_info_from_backup (chars "#EXTINF:-1,KBS") (chars "KBS") = (none, none) :=
  c9_hit_on_last_line (chars "#EXTINF:-1,KBS") (chars "KBS") (by decide)
    (by decide) (fun j hj => by simp [splitLines] at hj)

/-! ## Claim C3: zero successful channels leave the document untouched -/

/-- Claim C3: if no configured channel resolves successfully, the run
leaves the output document exactly as it was (the update operation is never
invoked) and the process exit status is 1. -/
theorem c3_zero_success_untouched (d : SyncData) (cfgs : List ChannelConfig)
    (existing : Option (List Char))
    (h : ∀ r ∈ process_channels d cfgs, r.success = false) :
    runSync d cfgs existing = (1, existing) := by
  have hfilter : (process_channels d cfgs).filter (fun c => c.success) = [] := by
    rw [List.filter_eq_nil_iff]
    intro a ha
    simp [h a ha]
  simp [runSync, hfilter]

/-- Witness for C3: empty data sources fail the single configured channel;
the pre-existing document comes back unchanged with exit status 1. -/
theorem c3_zero_success_untouched_witness :
    runSync emptyData [failConfig] (some (chars "#EXTM3U\nold")) =
      (1, some (chars "#EXTM3U\nold")) :=
  c3_zero_success_untouched emptyData [failConfig] (some (chars "#EXTM3U\nold"))
    (by decide)

/-! ## Claims C4 and C5: primary/fallback interplay in `process_channels` -/

/-- A catalog without an entry for the requested name yields nothing. -/
theorem jsonScan_eq_none_of_no_match (jm : List Char) :
    ∀ l : List CatalogEntry, (∀ e ∈ l, ¬e.name = some jm) →
      jsonScan jm l = (none, none)
  | [], _ => rfl
  | e :: rest, h => by
    have he : ¬e.name = some jm := h e (by simp)
    simp only [jsonScan, he, if_false]
    exact jsonScan_eq_none_of_no_match jm rest (fun x hx => h x (by simp [hx]))

/-- Claim C5: with backup disabled and no primary-catalog entry for the
channel's `json_match`, the channel fails, whatever the fallback document
contains. -/
theorem c5_no_primary_no_backup_fails (d : SyncData) (ch : ChannelConfig)
    (hb : ch.backup_source = false)
    (hnone : ∀ e ∈ d.koreatv_json, ¬e.name = some ch.json_match) :
    (processOne d ch).success = false := by
  have hjson : extract_info_from_json d.koreatv_json ch.json_match = (none, none) := by
    unfold extract_info_from_json
    split
    · rfl
    · exact jsonScan_eq_none_of_no_match ch.json_match d.koreatv_json hnone
  simp [processOne, hjson, hb, isNullish, pyTruthy]

/-- Witness for C5: a fallback document contains `KBS`, but the catalog has
no `KBS` entry and backup is disabled, so the channel fails. -/
theorem c5_no_primary_no_backup_fails_witness :
    (processOne
      { koreatv_json := [], koreatv_epg := [],
        backup_m3u := chars "#EXTINF:-1,KBS\nhttp://backup/kbs.m3u8" }
      failConfig).success = false :=
  c5_no_primary_no_backup_fails
    { koreatv_json := [], koreatv_epg := [],
      backup_m3u := chars "#EXTINF:-1,KBS\nhttp://backup/kbs.m3u8" }
    failConfig (by decide) (by decide)

/-- Claim C4: when the primary catalog yields the literal string `"null"`
as the url, backup is enabled and the fallback lookup produces a usable
URL, the result adopts the fallback URL and succeeds. -/
theorem c4_null_url_adopts_backup (d : SyncData) (ch : ChannelConfig)
    (lg bl : Option (List Char)) (u : List Char)
    (hb : ch.backup_source = true)
    (hjson : extract_info_from_json d.koreatv_json ch.json_match = (some nullStr, lg))
    (hback : extract_info_from_backup d.backup_m3u (ch.backup_match.getD ch.json_match)
      = (some u, bl))
    (hu1 : u ≠ []) (hu2 : u ≠ nullStr) :
    (processOne d ch).url = some u ∧ (processOne d ch).success = true := by
  obtain ⟨c, u', rfl⟩ : ∃ c u', u = c :: u' := by
    cases u with
    | nil => exact absurd rfl hu1
    | cons c u' => exact ⟨c, u', rfl⟩
  have htr : pyTruthy (some (c :: u')) = true := rfl
  have hnn : isNullish (some (c :: u')) = false := by
    simp [isNullish, htr, hu2]
  have hne : ¬(c = 'n' ∧ u' = ['u', 'l', 'l']) := by
    rintro ⟨rfl, rfl⟩
    exact hu2 rfl
  simp [processOne, hjson, hback, hb, hnn, isNullish, pyTruthy, nullStr, chars, hne]

/-- Witness for C4 at the concrete fixture: catalog url `"null"`, fallback
provides `http://backup/kbs.m3u8`. -/
theorem c4_null_url_adopts_backup_witness :
    (processOne nullUrlData backupConfig).url = some (chars "http://backup/kbs.m3u8") ∧
    (processOne nullUrlData backupConfig).success = true :=
  c4_null_url_adopts_backup nullUrlData backupConfig (some []) (some [])
    (chars "http://backup/kbs.m3u8") (by decide) (by decide) (by decide)
    (by decide) (by decide)


/-! ## Characterisation of `processOne` -/

/-- `processOne` either fails (unusable final url) with a bare result, or
succeeds carrying the resolved id, the resolved url and the normalised
logo. -/
theorem processOne_eq (d : SyncData) (ch : ChannelConfig) :
    processOne d ch =
      if isNullish (resolvedPair d ch).1 then
        { name := ch.name, channel_id := none, url := none, logo := none,
          success := false }
      else
        { name := ch.name, channel_id := some (resolved_channel_id d ch),
          url := (resolvedPair d ch).1,
          logo := if isNullish (resolvedPair d ch).2 then some []
                  else (resolvedPair d ch).2,
          success := true } := by
  simp only [processOne, resolvedPair, resolved_channel_id]
  rcases hq : (if isNullish (extract_info_from_json d.koreatv_json ch.json_match).1
        && ch.backup_source then
      if pyTruthy (extract_info_from_backup d.backup_m3u
          (ch.backup_match.getD ch.json_match)).1 = true then
        ((extract_info_from_backup d.backup_m3u (ch.backup_match.getD ch.json_match)).1,
          if pyTruthy (extract_info_from_backup d.backup_m3u
                (ch.backup_match.getD ch.json_match)).2
              && isNullish (extract_info_from_json d.koreatv_json ch.json_match).2 then
            (extract_info_from_backup d.backup_m3u (ch.backup_match.getD ch.json_match)).2
          else (extract_info_from_json d.koreatv_json ch.json_match).2)
      else extract_info_from_json d.koreatv_json ch.json_match
    else extract_info_from_json d.koreatv_json ch.json_match) with ⟨u, lg⟩
  rcases u with _ | u
  · simp [isNullish, pyTruthy]
  · by_cases hn : isNullish (some u) = true
    · simp [hn]
    · simp only [Bool.not_eq_true] at hn
      simp [hn, isNullish, pyTruthy] at *
      simp [hn]

/-! ## Claim C7: channel id resolution -/

/-- Claim C7: `channel_id` is the EPG-resolved identifier when one is
found, otherwise `default_id`, otherwise the empty string (the `.getD []`
default); id resolution never decides success — success is invariant under
changes to the EPG document, `epg_match` and `default_id`; and the MBC
scenario (empty listings document, default id `mbc.kr`, catalog url
`http://x/mbc.m3u8`) yields `{name:"MBC", channel_id:"mbc.kr",
url:"http://x/mbc.m3u8", success:true}`. -/
theorem c7_channel_id_resolution :
    (∀ (d : SyncData) (ch : ChannelConfig),
      (extract_channel_id_from_epg d.koreatv_epg ch.epg_match = none →
        (processOne d ch).success = true →
        (processOne d ch).channel_id = some (ch.default_id.getD [])) ∧
      (∀ i, extract_channel_id_from_epg d.koreatv_epg ch.epg_match = some i →
        i ≠ [] → (processOne d ch).success = true →
        (processOne d ch).channel_id = some i) ∧
      (∀ e m di, (processOne d ch).success =
        (processOne { d with koreatv_epg := e }
          { ch with epg_match := m, default_id := di }).success)) ∧
    processOne mbcData mbcConfig =
      { name := chars "MBC", channel_id := some (chars "mbc.kr"),
        url := some (chars "http://x/mbc.m3u8"), logo := some [],
        success := true } := by
  refine ⟨fun d ch => ⟨?_, ?_, ?_⟩, by decide⟩
  · intro hepg hs
    rw [processOne_eq] at hs ⊢
    split at hs
    · simp at hs
    · rename_i h
      simp [h, resolved_channel_id, hepg]
  · intro i hepg hi hs
    rw [processOne_eq] at hs ⊢
    split at hs
    · simp at hs
    · rename_i h
      simp [h, resolved_channel_id, hepg, hi]
  · intro e m di
    rw [processOne_eq, processOne_eq]
    have hrp : resolvedPair { d with koreatv_epg := e }
        { ch with epg_match := m, default_id := di } = resolvedPair d ch := by
      simp [resolvedPair]
    rw [hrp]
    split <;> rfl

/-- Witness for C7: in the MBC scenario the EPG lookup finds nothing and
the id falls back to the configured default. -/
theorem c7_channel_id_resolution_witness :
    extract_channel_id_from_epg mbcData.koreatv_epg mbcConfig.epg_match = none ∧
    (processOne mbcData mbcConfig).channel_id = some (mbcConfig.default_id.getD []) :=
  ⟨by decide,
    (c7_channel_id_resolution.1 mbcData mbcConfig).1 (by decide) (by decide)⟩

/-! ## Claim C10: shape of the result dictionaries -/

/-- Claim C10: a failed result carries only the channel name and the
success flag (all other fields absent), even when an id was resolved; a
successful result always carries a logo string, never the literal string
`"null"`; and when neither source provided a usable logo, a successful
result's logo is the empty string. -/
theorem c10_result_shape (d : SyncData) (ch : ChannelConfig) :
    ((processOne d ch).success = false →
      processOne d ch =
        { name := ch.name, channel_id := none, url := none, logo := none,
          success := false }) ∧
    ((processOne d ch).success = true →
      ∃ s, (processOne d ch).logo = some s ∧ s ≠ nullStr) ∧
    (isNullish (extract_info_from_json d.koreatv_json ch.json_match).2 = true →
      isNullish (extract_info_from_backup d.backup_m3u
          (ch.backup_match.getD ch.json_match)).2 = true →
      (processOne d ch).success = true →
      (processOne d ch).logo = some []) := by
  have hlogo : isNullish (extract_info_from_json d.koreatv_json ch.json_match).2 = true →
      isNullish (extract_info_from_backup d.backup_m3u
        (ch.backup_match.getD ch.json_match)).2 = true →
      isNullish (resolvedPair d ch).2 = true := by
    intro h1 h2
    simp only [resolvedPair]
    split
    · split
      · simp only
        split
        · exact h2
        · exact h1
      · exact h1
    · exact h1
  refine ⟨?_, ?_, ?_⟩
  · intro hs
    rw [processOne_eq] at hs ⊢
    split at hs
    · rename_i h
      rw [if_pos h]
    · simp at hs
  · intro hs
    rw [processOne_eq] at hs ⊢
    split at hs
    · simp at hs
    · rename_i hn
      rw [if_neg hn]
      split
    
      · exact ⟨[], rfl, by decide⟩
      · rename_i hn2
        rcases hq : (resolvedPair d ch).2 with _ | s
        · rw [hq] at hn2
          simp [isNullish, pyTruthy] at hn2
        · refine ⟨s, rfl, fun hcon => ?_⟩
          rw [hq, hcon] at hn2
          exact hn2 (by decide)
  · intro h1 h2 hs
    rw [processOne_eq] at hs ⊢
    split at hs
    · simp at hs
    · rename_i h
      rw [if_neg h]
      simp [hlogo h1 h2]

/-- Witness for C10: with empty sources the channel fails and the result
is the bare name/success dictionary; in the MBC scenario (no logo in the
catalog) the successful result's logo is the empty string. -/
theorem c10_result_shape_witness :
    processOne emptyData failConfig =
      { name := failConfig.name, channel_id := none, url := none, logo := none,
        success := false } ∧
    (processOne mbcData mbcConfig).logo = some [] :=
  ⟨(c10_result_shape emptyData failConfig).1 (by decide),
   (c10_result_shape mbcData mbcConfig).2.2 (by decide) (by decide) (by decide)⟩


/-! ## Line and strip lemmas for the uniqueness invariant -/

theorem splitLines_append_newline (a b : List Char) :
    splitLines (a ++ '\n' :: b) = splitLines a ++ splitLines b := by
  induction a with
  | nil => simp [splitLines]
  | cons c a ih =>
    by_cases hc : c = '\n'
    · subst hc
      simp [splitLines, ih]
    · simp only [List.cons_append, splitLines, hc, if_false, List.append_eq]
      rw [ih]
      cases h : splitLines a with
      | nil => exact absurd h (splitLines_ne_nil a)
      | cons l ls => simp

theorem newline_not_mem_splitLines (s : List Char) :
    ∀ l ∈ splitLines s, '\n' ∉ l := by
  induction s with
  | nil =>
    intro l hl
    simp only [splitLines, List.mem_singleton] at hl
    subst hl
    simp
  | cons c rest ih =>
    intro l hl
    simp only [splitLines] at hl
    by_cases hc : c = '\n'
    · rw [if_pos hc] at hl
      rcases List.mem_cons.mp hl with h1 | h1
      · subst h1
        simp
      · exact ih l h1
    · rw [if_neg hc] at hl
      cases h : splitLines rest with
      | nil => exact absurd h (splitLines_ne_nil rest)
      | cons l0 ls =>
        rw [h] at hl
        rcases List.mem_cons.mp hl with h1 | h1
        · subst h1
          intro hmem
          rcases List.mem_cons.mp hmem with h2 | h2
          · exact hc h2.symm
          · exact ih l0 (by rw [h]; exact List.mem_cons_self _ _) h2
        · exact ih l (by rw [h]; exact List.mem_cons_of_mem _ h1)

theorem splitLines_of_no_newline (l : List Char) (h : '\n' ∉ l) :
    splitLines l = [l] := by
  induction l with
  | nil => rfl
  | cons c rest ih =>
    have hc : ¬c = '\n' := fun hcc => h (by simp [hcc])
    have hr : '\n' ∉ rest := fun hm => h (by simp [hm])
    simp [splitLines, hc, ih hr]

theorem splitLines_joinLines (L : List Line) (hL : L ≠ [])
    (h : ∀ l ∈ L, '\n' ∉ l) : splitLines (joinLines L) = L := by
  induction L with
  | nil => exact absurd rfl hL
  | cons l rest ih =>
    cases rest with
    | nil => exact splitLines_of_no_newline l (h l (by simp))
    | cons l2 rest2 =>
      have hjoin : joinLines (l :: l2 :: rest2) = l ++ '\n' :: joinLines (l2 :: rest2) := rfl
      rw [hjoin, splitLines_append_newline,
        splitLines_of_no_newline l (h l (by simp)),
        ih (by simp) (fun x hx => h x (by simp [hx]))]
      rfl

theorem joinLines_cons (l : Line) (rest : List Line) (h : rest ≠ []) :
    joinLines (l :: rest) = l ++ '\n' :: joinLines rest := by
  cases rest with
  | nil => exact absurd rfl h
  | cons l2 rest2 => rfl

theorem rstripWS_cons (c : Char) (t : List Char) :
    rstripWS (c :: t) =
      if (rstripWS t).isEmpty && pyWS c then [] else c :: rstripWS t := rfl

theorem rstripWS_append (a b : List Char) :
    rstripWS (a ++ b) =
      if rstripWS b = [] then rstripWS a else a ++ rstripWS b := by
  induction a with
  | nil =>
    simp only [List.nil_append]
    split
    · rename_i h
      rw [h]
      rfl
    · rfl
  | cons c a ih =>
    by_cases hb : rstripWS b = []
    · rw [if_pos hb]
      rw [List.cons_append, rstripWS_cons, ih, if_pos hb, rstripWS_cons]
    · rw [if_neg hb]
      rw [List.cons_append, rstripWS_cons, ih, if_neg hb]
      have hne : ((a ++ rstripWS b).isEmpty && pyWS c) = false := by
        have h2 : a ++ rstripWS b ≠ [] := by simp [hb]
        simp [List.isEmpty_iff, h2]
      rw [hne]
      simp

theorem rstripWS_idem (s : List Char) : rstripWS (rstripWS s) = rstripWS s := by
  induction s with
  | nil => rfl
  | cons c t ih =>
    rw [rstripWS_cons]
    by_cases h : ((rstripWS t).isEmpty && pyWS c) = true
    · rw [if_pos h]
      rfl
    · rw [if_neg h, rstripWS_cons, ih]
      rw [if_neg h]

theorem rstripWS_decomp (s : List Char) :
    ∃ t, s = rstripWS s ++ t ∧ ∀ c ∈ t, pyWS c = true := by
  induction s with
  | nil => exact ⟨[], rfl, by simp⟩
  | cons c u ih =>
    obtain ⟨t, ht, hws⟩ := ih
    rw [rstripWS_cons]
    by_cases h : ((rstripWS u).isEmpty && pyWS c) = true
    · rw [if_pos h]
      refine ⟨c :: u, rfl, fun x hx => ?_⟩
      rcases List.mem_cons.mp hx with h1 | h1
      · subst h1
        exact (Bool.and_eq_true_iff.mp h).2
      · have hu : rstripWS u = [] := by
          simpa [List.isEmpty_iff] using (Bool.and_eq_true_iff.mp h).1
        rw [hu] at ht
        simp only [List.nil_append] at ht
        exact hws x (ht ▸ h1)
    · rw [if_neg h]
      exact ⟨t, by rw [List.cons_append, ← ht], hws⟩

theorem rstripWS_eq_dropWhile_reverse (s : List Char) :
    rstripWS s = ((s.reverse).dropWhile pyWS).reverse := by
  induction s with
  | nil => rfl
  | cons c t ih =>
    rw [rstripWS_cons, List.reverse_cons, List.dropWhile_append]
    by_cases ht : (t.reverse.dropWhile pyWS).isEmpty
    · have ht' : rstripWS t = [] := by
        rw [ih, List.reverse_eq_nil_iff]
        exact List.isEmpty_iff.mp ht
      rw [ht', if_pos ht]
      by_cases hc : pyWS c
      · simp [List.dropWhile, hc]
      · simp [List.dropWhile, hc]
    · have ht' : ¬((rstripWS t).isEmpty && pyWS c) = true := by
        rw [ih]
        simp only [List.isEmpty_iff, List.reverse_eq_nil_iff] at ht ⊢
        simp [List.isEmpty_iff.mp.mt ht]
        intro hcon
        exact absurd hcon (by simpa [List.isEmpty_iff] using ht)
      rw [if_neg ht', if_neg ht]
      rw [List.reverse_append, ih]
      simp

theorem takeWhile_dropWhile_comm {p q : Char → Bool}
    (hpq : ∀ c, p c = true → q c = true) (r : List Char) :
    (r.dropWhile p).takeWhile q = (r.takeWhile q).dropWhile p := by
  induction r with
  | nil => rfl
  | cons c r ih =>
    by_cases hp : p c = true
    · rw [List.dropWhile_cons_of_pos hp, List.takeWhile_cons_of_pos (hpq c hp),
        List.dropWhile_cons_of_pos hp, ih]
    · rw [List.dropWhile_cons_of_neg hp]
      by_cases hq : q c = true
      · rw [List.takeWhile_cons_of_pos hq, List.dropWhile_cons_of_neg hp]
      · simp [List.takeWhile_cons_of_neg hq]

theorem takeWhile_eq_self_of_all {q : Char → Bool} (r : List Char)
    (h : ∀ c ∈ r, q c = true) : r.takeWhile q = r :=
  List.takeWhile_eq_self_iff.mpr h

theorem allWs_extinfLabel_none (l : Line) (h : allWs l = true) :
    extinfLabel l = none := by
  by_cases hp : extinfMarker.isPrefixOf l = true
  · exfalso
    rw [List.isPrefixOf_iff_prefix] at hp
    obtain ⟨t, ht⟩ := hp
    have hmem : '#' ∈ l := by
      rw [← ht]
      exact List.mem_append_left _ (by decide)
    have := (List.all_eq_true.mp h) '#' hmem
    simp [pyWS] at this
  · simp [extinfLabel, hp]

theorem pyStrip_rstripWS (x : List Char) : pyStrip (rstripWS x) = pyStrip x := by
  simp only [pyStrip, rstripWS_idem]

theorem extinfLabel_rstripWS (l : Line) :
    extinfLabel (rstripWS l) = extinfLabel l ∨ extinfLabel (rstripWS l) = none := by
  by_cases hm : extinfMarker.isPrefixOf (rstripWS l) = true
  · -- the marker also prefixes the unstripped line
    have hml : extinfMarker.isPrefixOf l = true := by
      rw [List.isPrefixOf_iff_prefix] at hm ⊢
      have hpre : rstripWS l <+: l := by
        obtain ⟨t, ht, _⟩ := rstripWS_decomp l
        exact ⟨t, ht.symm⟩
      exact hm.trans hpre
    have hpq : ∀ c, pyWS c = true → (c != ',') = true := by
      intro c hc
      by_contra hcon
      have hc' : c = ',' := by simpa using hcon
      subst hc'
      simp [pyWS] at hc
    have hrs : (rstripWS l).reverse = l.reverse.dropWhile pyWS := by
      rw [rstripWS_eq_dropWhile_reverse]
      simp
    have hA' : (rstripWS l).reverse.takeWhile (fun c => c != ',')
        = (l.reverse.takeWhile (fun c => c != ',')).dropWhile pyWS := by
      rw [hrs, takeWhile_dropWhile_comm hpq]
    rcases hemp : ((rstripWS l).reverse.takeWhile (fun c => c != ',')) with _ | ⟨a, A'⟩
    · -- empty name segment after stripping: no label
      right
      simp [extinfLabel, hm, extinfName, hemp]
    · by_cases hlen : ((rstripWS l).reverse.takeWhile (fun c => c != ',')).length
          < (rstripWS l).length
      · -- the stripped line has a label; show it equals the original one
        left
        have hAlen : (l.reverse.takeWhile (fun c => c != ',')).length < l.length := by
          by_contra hcon
          push_neg at hcon
          have hle : (l.reverse.takeWhile (fun c => c != ',')).length ≤ l.reverse.length :=
            (List.takeWhile_sublist _).length_le
          rw [List.length_reverse] at hle
          have heq : (l.reverse.takeWhile (fun c => c != ',')).length = l.reverse.length := by
            rw [List.length_reverse]
            omega
          have hself : l.reverse.takeWhile (fun c => c != ',') = l.reverse :=
            (List.takeWhile_sublist _).eq_of_length heq
          have hall : ∀ c ∈ l.reverse, (c != ',') = true :=
            List.takeWhile_eq_self_iff.mp hself
          have hall' : ∀ c ∈ (rstripWS l).reverse, (c != ',') = true := by
            intro c hc
            refine hall c ?_
            rw [hrs] at hc
            exact (List.dropWhile_sublist _).subset hc
          have : (rstripWS l).reverse.takeWhile (fun c => c != ',') = (rstripWS l).reverse :=
            takeWhile_eq_self_of_all _ hall'
          rw [this, List.length_reverse] at hlen
          omega
        have hAne : l.reverse.takeWhile (fun c => c != ',') ≠ [] := by
          intro hnil
          rw [hA', hnil] at hemp
          simp at hemp
        have hval : pyStrip ((rstripWS l).reverse.takeWhile (fun c => c != ',')).reverse
            = pyStrip (l.reverse.takeWhile (fun c => c != ',')).reverse := by
          rw [hA']
          have : ((l.reverse.takeWhile (fun c => c != ',')).dropWhile pyWS).reverse
              = rstripWS (l.reverse.takeWhile (fun c => c != ',')).reverse := by
            rw [rstripWS_eq_dropWhile_reverse, List.reverse_reverse]
          rw [this, pyStrip_rstripWS]
        rw [extinfLabel, if_pos hm, extinfLabel, if_pos hml]
        simp only [extinfName]
        rw [if_pos, if_pos]
        · rw [hval]
        · simp only [List.length_reverse, Bool.and_eq_true, decide_eq_true_eq,
            Bool.not_eq_true', List.isEmpty_iff]
          refine ⟨hAlen, by simpa using hAne⟩
        · simp only [List.length_reverse, Bool.and_eq_true, decide_eq_true_eq,
            Bool.not_eq_true', List.isEmpty_iff]
          refine ⟨hlen, by simp [hemp]⟩
      · -- no comma in the stripped line: no label
        right
        simp only [extinfLabel, if_pos hm, extinfName]
        rw [if_neg]
        simp only [List.length_reverse, Bool.and_eq_true, decide_eq_true_eq,
          Bool.not_eq_true', List.isEmpty_iff]
        intro hcon
        exact hlen hcon.1
  · right
    simp [extinfLabel, hm]

/-! ## The deduplication pass: distinct labels and a good start -/

theorem cleanLines_labels :
    ∀ (L : List Line) (seen : List (List Char)) (cur : Option (List Char)),
      ((cleanLines L seen cur).filterMap extinfLabel).Nodup ∧
      ∀ x ∈ (cleanLines L seen cur).filterMap extinfLabel, x ∉ seen
  | [], seen, cur => by simp [cleanLines]
  | l :: rest, seen, cur => by
    by_cases hp : extinfMarker.isPrefixOf l = true
    · rcases hnm : extinfName l with _ | nm
      · have hlab : extinfLabel l = none := by simp [extinfLabel, hp, hnm]
        have ih := cleanLines_labels rest seen cur
        simp only [cleanLines, hp, if_true, hnm]
        rw [List.filterMap_cons_none hlab]
        exact ih
      · by_cases hseen : nm ∈ seen
        · have ih := cleanLines_labels rest seen (some skipSentinel)
          simp only [cleanLines, hp, if_true, hnm, hseen, if_true]
          exact ih
        · have hlab : extinfLabel l = some nm := by simp [extinfLabel, hp, hnm]
          have ih := cleanLines_labels rest (nm :: seen) (some nm)
          simp only [cleanLines, hp, if_true, hnm, hseen, if_false]
          rw [List.filterMap_cons_some hlab]
          constructor
          · refine List.Nodup.cons ?_ ih.1
            intro hmem
            exact ih.2 nm hmem (by simp)
          · intro x hx
            rcases List.mem_cons.mp hx with rfl | hx
            · exact hseen
            · intro hxs
              exact ih.2 x hx (by simp [hxs])
    · have hlab : extinfLabel l = none := by simp [extinfLabel, hp]
      by_cases hh : httpMarker.isPrefixOf l = true
      · by_cases hcur : cur = some skipSentinel
        · have ih := cleanLines_labels rest seen none
          simp only [cleanLines, hp, if_false, hh, if_true, hcur]
          exact ih
        · have ih := cleanLines_labels rest seen none
          simp only [cleanLines, hp, if_false, hh, if_true, hcur,
            Bool.false_eq_true]
          rw [List.filterMap_cons_none hlab]
          exact ih
      · have ih := cleanLines_labels rest seen cur
        simp only [cleanLines, hp, if_false, hh, Bool.false_eq_true]
        rw [List.filterMap_cons_none hlab]
        exact ih

theorem not_prefixOf_of_allWs (pat l : Line) (h : allWs l = true)
    (c : Char) (t : List Char) (hpat : pat = c :: t) (hc : pyWS c = false) :
    pat.isPrefixOf l = false := by
  by_contra hcon
  have hpre : pat <+: l := List.isPrefixOf_iff_prefix.mp (by simpa using hcon)
  obtain ⟨u, hu⟩ := hpre
  have hmem : c ∈ l := by
    rw [← hu, hpat]
    simp
  have := (List.all_eq_true.mp h) c hmem
  rw [this] at hc
  exact absurd hc (by simp)

theorem cleanLines_keeps_head (l : Line) (rest : List Line) :
    ∃ X, cleanLines (l :: rest) [] none = l :: X := by
  by_cases hp : extinfMarker.isPrefixOf l = true
  · rcases hnm : extinfName l with _ | nm
    · exact ⟨cleanLines rest [] none, by simp [cleanLines, hp, hnm]⟩
    · refine ⟨cleanLines rest [nm] (some nm), ?_⟩
      simp [cleanLines, hp, hnm]
  · by_cases hh : httpMarker.isPrefixOf l = true
    · refine ⟨cleanLines rest [] none, ?_⟩
      have : (none : Option (List Char)) ≠ some skipSentinel := by simp
      simp [cleanLines, hp, hh, this]
    · exact ⟨cleanLines rest [] none, by simp [cleanLines, hp, hh]⟩

theorem cleanLines_goodStart : ∀ L : List Line, goodStart L →
    goodStart (cleanLines L [] none)
  | [], _ => by simp [cleanLines, goodStart]
  | l :: rest, hgs => by
    by_cases hws : allWs l = true
    · have hp : extinfMarker.isPrefixOf l = false :=
        not_prefixOf_of_allWs _ l hws '#' (chars "EXTINF:") rfl (by decide)
      have hh : httpMarker.isPrefixOf l = false :=
        not_prefixOf_of_allWs _ l hws 'h' (chars "ttp") rfl (by decide)
      have hrec : cleanLines (l :: rest) [] none = l :: cleanLines rest [] none := by
        simp [cleanLines, hp, hh]
      rw [hrec]
      have hgs' : goodStart rest := by
        unfold goodStart at hgs ⊢
        rwa [List.dropWhile_cons_of_pos hws] at hgs
      have ih := cleanLines_goodStart rest hgs'
      unfold goodStart at ih ⊢
      rwa [List.dropWhile_cons_of_pos hws]
    · obtain ⟨X, hX⟩ := cleanLines_keeps_head l rest
      rw [hX]
      unfold goodStart at hgs ⊢
      rw [List.dropWhile_cons_of_neg hws] at hgs ⊢
      exact hgs

/-! ## Stripping the joined document only removes or shortens lines -/

theorem lstripWS_joinLines : ∀ M : List Line, goodStart M →
    lstripWS (joinLines M) = joinLines (M.dropWhile allWs)
  | [], _ => rfl
  | [l], h => by
    by_cases hws : allWs l = true
    · show lstripWS l = joinLines (List.dropWhile allWs [l])
      rw [List.dropWhile_cons_of_pos hws]
      show lstripWS l = joinLines []
      have hnil : List.dropWhile pyWS l = [] :=
        List.dropWhile_eq_nil_iff.mpr (List.all_eq_true.mp hws)
      unfold lstripWS
      rw [hnil]
      rfl
    · unfold goodStart at h
      rw [List.dropWhile_cons_of_neg hws] at h
      obtain ⟨c, r, rfl, hc⟩ := h
      show lstripWS (c :: r) = joinLines (List.dropWhile allWs [c :: r])
      rw [List.dropWhile_cons_of_neg hws]
      show List.dropWhile pyWS (c :: r) = joinLines [c :: r]
      rw [List.dropWhile_cons_of_neg (by simp [hc])]
      rfl
  | l :: l2 :: rest, h => by
    by_cases hws : allWs l = true
    · have hgs : goodStart (l2 :: rest) := by
        unfold goodStart at h ⊢
        rwa [List.dropWhile_cons_of_pos hws] at h
      have ih := lstripWS_joinLines (l2 :: rest) hgs
      show lstripWS (l ++ '\n' :: joinLines (l2 :: rest)) = _
      rw [List.dropWhile_cons_of_pos hws]
      unfold lstripWS at ih ⊢
      rw [List.dropWhile_append]
      have hle : List.dropWhile pyWS l = [] :=
        List.dropWhile_eq_nil_iff.mpr (List.all_eq_true.mp hws)
      rw [hle]
      simp only [List.isEmpty_nil, if_true]
      rw [List.dropWhile_cons_of_pos (by decide : pyWS '\n' = true)]
      exact ih
    · unfold goodStart at h
      rw [List.dropWhile_cons_of_neg hws] at h
      obtain ⟨c, r, hl, hc⟩ := h
      rw [List.dropWhile_cons_of_neg hws]
      show lstripWS (l ++ '\n' :: joinLines (l2 :: rest)) = _
      subst hl
      unfold lstripWS
      rw [List.cons_append, List.dropWhile_cons_of_neg (by simp [hc])]
      rfl

theorem rstripWS_joinLines_labels : ∀ N : List Line, (∀ l ∈ N, '\n' ∉ l) →
    List.Sublist ((splitLines (rstripWS (joinLines N))).filterMap extinfLabel)
      (N.filterMap extinfLabel)
  | [], _ => by simp [joinLines, rstripWS, splitLines, extinfLabel, extinfMarker, chars]
  | [l], h => by
    show List.Sublist ((splitLines (rstripWS l)).filterMap extinfLabel) _
    have hnl : '\n' ∉ rstripWS l := by
      obtain ⟨t, ht, _⟩ := rstripWS_decomp l
      intro hmem
      exact h l (by simp) (ht ▸ List.mem_append_left t hmem)
    rw [splitLines_of_no_newline _ hnl]
    rcases extinfLabel_rstripWS l with heq | hnone
    · simp only [List.filterMap_cons, heq, List.filterMap_nil]
      cases extinfLabel l <;> simp
    · simp only [List.filterMap_cons, hnone, List.filterMap_nil]
      cases extinfLabel l <;> simp
  | l :: l2 :: rest, h => by
    have hjoin : joinLines (l :: l2 :: rest) = l ++ '\n' :: joinLines (l2 :: rest) := rfl
    rw [hjoin, rstripWS_append]
    by_cases hb : rstripWS ('\n' :: joinLines (l2 :: rest)) = []
    · rw [if_pos hb]
      have hnl : '\n' ∉ rstripWS l := by
        obtain ⟨t, ht, _⟩ := rstripWS_decomp l
        intro hmem
        exact h l (by simp) (ht ▸ List.mem_append_left t hmem)
      rw [splitLines_of_no_newline _ hnl]
      have hsub : List.Sublist (List.filterMap extinfLabel [rstripWS l])
          (List.filterMap extinfLabel [l]) := by
        rcases extinfLabel_rstripWS l with heq | hnone
        · simp only [List.filterMap_cons, heq, List.filterMap_nil]
          cases extinfLabel l <;> simp
        · simp only [List.filterMap_cons, hnone, List.filterMap_nil]
          cases extinfLabel l <;> simp
      refine hsub.trans ?_
      simp only [List.filterMap_cons]
      cases extinfLabel l <;> simp
    · rw [if_neg hb]
      rw [rstripWS_cons] at hb ⊢
      by_cases hr : rstripWS (joinLines (l2 :: rest)) = []
      · rw [hr] at hb
        simp [pyWS] at hb
      · have hne : ¬((rstripWS (joinLines (l2 :: rest))).isEmpty
            && pyWS '\n') = true := by
          simp [List.isEmpty_iff, hr]
        rw [if_neg hne]
        rw [splitLines_append_newline]
        rw [splitLines_of_no_newline l (h l (by simp))]
        rw [List.filterMap_append]
        have ih := rstripWS_joinLines_labels (l2 :: rest)
          (fun x hx => h x (by simp [hx]))
        have hl2 : List.filterMap extinfLabel (l :: l2 :: rest)
            = List.filterMap extinfLabel [l] ++
              List.filterMap extinfLabel (l2 :: rest) := by
          simp only [List.filterMap_cons]
          cases extinfLabel l <;> simp
        rw [hl2]
        exact List.Sublist.append (List.Sublist.refl _) ih

theorem lstripWS_rstripWS_comm (s : List Char) :
    lstripWS (rstripWS s) = rstripWS (lstripWS s) := by
  induction s with
  | nil => rfl
  | cons c t ih =>
    by_cases hc : pyWS c = true
    · have hl : lstripWS (c :: t) = lstripWS t := List.dropWhile_cons_of_pos hc
      rw [hl, ← ih, rstripWS_cons]
      by_cases hr : rstripWS t = []
      · rw [hr]
        have : (([] : List Char).isEmpty && pyWS c) = true := by simp [hc]
        rw [if_pos this]
      · have : ¬((rstripWS t).isEmpty && pyWS c) = true := by
          simp [List.isEmpty_iff, hr]
        rw [if_neg this]
        exact List.dropWhile_cons_of_pos hc
    · have hl : lstripWS (c :: t) = c :: t := List.dropWhile_cons_of_neg hc
      rw [hl, rstripWS_cons]
      by_cases hr : ((rstripWS t).isEmpty && pyWS c) = true
      · exact absurd (Bool.and_eq_true_iff.mp hr).2 hc
      · rw [if_neg hr]
        exact List.dropWhile_cons_of_neg hc

theorem pyStrip_joinLines_labels (M : List Line) (hnl : ∀ l ∈ M, '\n' ∉ l)
    (hgs : goodStart M) :
    List.Sublist ((splitLines (pyStrip (joinLines M))).filterMap extinfLabel)
      (M.filterMap extinfLabel) := by
  have h1 : pyStrip (joinLines M) = rstripWS (joinLines (M.dropWhile allWs)) := by
    rw [pyStrip, lstripWS_rstripWS_comm, lstripWS_joinLines M hgs]
  rw [h1]
  have h2 := rstripWS_joinLines_labels (M.dropWhile allWs)
    (fun l hl => hnl l ((List.dropWhile_sublist _).subset hl))
  exact h2.trans ((List.dropWhile_sublist _).filterMap _)

/-! ## `goodStart` is established by stripping and preserved by merging -/

theorem dropWhile_head_false {p : Char → Bool} :
    ∀ (x : List Char) (c : Char) (r : List Char),
      x.dropWhile p = c :: r → p c = false
  | [], c, r => by simp [List.dropWhile]
  | d :: t, c, r => by
    intro h
    by_cases hd : p d = true
    · rw [List.dropWhile_cons_of_pos hd] at h
      exact dropWhile_head_false t c r h
    · rw [List.dropWhile_cons_of_neg hd] at h
      cases h
      simpa using hd

theorem splitLines_cons_of_ne (c : Char) (r : List Char) (h : ¬c = '\n') :
    ∃ A B, splitLines (c :: r) = (c :: A) :: B := by
  simp only [splitLines, h, if_false]
  cases hs : splitLines r with
  | nil => exact absurd hs (splitLines_ne_nil r)
  | cons l ls => exact ⟨l, ls, rfl⟩

theorem goodStart_splitLines_pyStrip (s : List Char) :
    goodStart (splitLines (pyStrip s)) := by
  cases h : pyStrip s with
  | nil =>
    unfold goodStart
    simp [splitLines, allWs]
  | cons c r =>
    have hc : pyWS c = false := by
      have : (rstripWS s).dropWhile pyWS = c :: r := h
      exact dropWhile_head_false _ c r this
    have hcn : ¬c = '\n' := by
      intro hcc
      rw [hcc] at hc
      simp [pyWS] at hc
    obtain ⟨A, B, hAB⟩ := splitLines_cons_of_ne c r hcn
    unfold goodStart
    rw [hAB]
    have : allWs (c :: A) = false := by
      simp [allWs, hc]
    rw [List.dropWhile_cons_of_neg (by simp [this])]
    exact ⟨c, A, rfl, hc⟩

theorem mem_splitLines_subset :
    ∀ (l : List Char) (piece : Line), piece ∈ splitLines l →
      ∀ c ∈ piece, c ∈ l
  | [], piece, hp => by
    simp [splitLines] at hp
    subst hp
    simp
  | d :: rest, piece, hp => by
    intro c hc
    simp only [splitLines] at hp
    by_cases hd : d = '\n'
    · rw [if_pos hd] at hp
      rcases List.mem_cons.mp hp with rfl | hp
      · simp at hc
      · exact List.mem_cons_of_mem _ (mem_splitLines_subset rest piece hp c hc)
    · rw [if_neg hd] at hp
      cases hs : splitLines rest with
      | nil => exact absurd hs (splitLines_ne_nil rest)
      | cons l0 ls =>
        rw [hs] at hp
        rcases List.mem_cons.mp hp with rfl | hp
        · rcases List.mem_cons.mp hc with rfl | hc
          · simp
          · exact List.mem_cons_of_mem _
              (mem_splitLines_subset rest l0 (by rw [hs]; simp) c hc)
        · exact List.mem_cons_of_mem _
            (mem_splitLines_subset rest piece (by rw [hs]; simp [hp]) c hc)

theorem goodStart_splitLines_joinLines : ∀ K : List Line, goodStart K →
    goodStart (splitLines (joinLines K))
  | [], _ => by
    unfold goodStart
    simp [joinLines, splitLines, allWs]
  | [l], h => by
    show goodStart (splitLines l)
    by_cases hws : allWs l = true
    · unfold goodStart
      have hdw : List.dropWhile allWs (splitLines l) = [] := by
        refine List.dropWhile_eq_nil_iff.mpr (fun piece hp => ?_)
        exact List.all_eq_true.mpr
          (fun c hc => List.all_eq_true.mp hws c (mem_splitLines_subset l piece hp c hc))
      rw [hdw]
      trivial
    · unfold goodStart at h
      rw [List.dropWhile_cons_of_neg hws] at h
      obtain ⟨c, r, rfl, hc⟩ := h
      have hcn : ¬c = '\n' := by
        intro hcc
        rw [hcc] at hc
        simp [pyWS] at hc
      obtain ⟨A, B, hAB⟩ := splitLines_cons_of_ne c r hcn
      unfold goodStart
      rw [hAB, List.dropWhile_cons_of_neg (by simp [allWs, hc])]
      exact ⟨c, A, rfl, hc⟩
  | l :: l2 :: rest, h => by
    have hjoin : joinLines (l :: l2 :: rest) = l ++ '\n' :: joinLines (l2 :: rest) := rfl
    rw [hjoin, splitLines_append_newline]
    by_cases hws : allWs l = true
    · have hgs : goodStart (l2 :: rest) := by
        unfold goodStart at h ⊢
        rwa [List.dropWhile_cons_of_pos hws] at h
      have ih := goodStart_splitLines_joinLines (l2 :: rest) hgs
      have hall : List.dropWhile allWs (splitLines l) = [] := by
        refine List.dropWhile_eq_nil_iff.mpr (fun piece hp => ?_)
        exact List.all_eq_true.mpr
          (fun c hc => List.all_eq_true.mp hws c (mem_splitLines_subset l piece hp c hc))
      unfold goodStart at ih ⊢
      rw [List.dropWhile_append, hall]
      simp only [List.isEmpty_nil, if_true]
      exact ih
    · unfold goodStart at h
      rw [List.dropWhile_cons_of_neg hws] at h
      obtain ⟨c, r, rfl, hc⟩ := h
      have hcn : ¬c = '\n' := by
        intro hcc
        rw [hcc] at hc
        simp [pyWS] at hc
      obtain ⟨A, B, hAB⟩ := splitLines_cons_of_ne c r hcn
      unfold goodStart
      rw [hAB, List.cons_append]
      rw [List.dropWhile_cons_of_neg (by simp [allWs, hc])]
      exact ⟨c, A, rfl, hc⟩

theorem allWs_lineMatches_false (nm l : List Char) (h : allWs l = true) :
    lineMatches nm l = false := by
  by_contra hcon
  have htrue : lineMatches nm l = true := by simpa using hcon
  have hsuf : (',' :: nm).isSuffixOf l = true :=
    (Bool.and_eq_true_iff.mp htrue).1
  rw [List.isSuffixOf_iff_suffix] at hsuf
  have hmem : ',' ∈ l := hsuf.subset (List.mem_cons_self _ _)
  have := List.all_eq_true.mp h ',' hmem
  simp [pyWS] at this

theorem extinfLineFor_head (channel_id logo name : List Char) :
    ∃ t, extinfLineFor channel_id logo name = '#' :: t := by
  unfold extinfLineFor
  exact ⟨_, rfl⟩

theorem preMarker_shape (c : Char) (r : List Char) :
    preMarker (c :: r) = [] ∨ ∃ t, preMarker (c :: r) = c :: t := by
  unfold preMarker
  split
  · exact Or.inl rfl
  · exact Or.inr ⟨preMarker r, rfl⟩

theorem subbed_line_head (nm e l : List Char) (c : Char) (r : List Char)
    (hl : l = c :: r) (hc : pyWS c = false) (he : ∃ t, e = '#' :: t) :
    ∃ c2 r2, (if lineMatches nm l = true then preMarker l ++ e else l) = c2 :: r2 ∧
      pyWS c2 = false := by
  by_cases hm : lineMatches nm l = true
  · rw [if_pos hm]
    subst hl
    rcases preMarker_shape c r with hp | ⟨t, hp⟩
    · rw [hp]
      obtain ⟨t2, ht2⟩ := he
      exact ⟨'#', t2, by simp [ht2], by decide⟩
    · rw [hp]
      exact ⟨c, t ++ e, by simp, hc⟩
  · rw [if_neg hm]
    exact ⟨c, r, hl, hc⟩

theorem subExtinf_goodStart (nm e : List Char) (he : ∃ t, e = '#' :: t) :
    ∀ K : List Line, goodStart K → goodStart (subExtinf nm e K)
  | [], h => h
  | [l], h => h
  | l :: l2 :: rest, h => by
    by_cases hws : allWs l = true
    · have hm : lineMatches nm l = false := allWs_lineMatches_false nm l hws
      have heq : subExtinf nm e (l :: l2 :: rest)
          = l :: subExtinf nm e (l2 :: rest) := by
        show (if lineMatches nm l = true then preMarker l ++ e else l) ::
          subExtinf nm e (l2 :: rest) = _
        rw [hm]
        simp
      rw [heq]
      have hgs : goodStart (l2 :: rest) := by
        unfold goodStart at h ⊢
        rwa [List.dropWhile_cons_of_pos hws] at h
      have ih := subExtinf_goodStart nm e he (l2 :: rest) hgs
      unfold goodStart at ih ⊢
      rwa [List.dropWhile_cons_of_pos hws]
    · unfold goodStart at h
      rw [List.dropWhile_cons_of_neg hws] at h
      obtain ⟨c, r, hl, hc⟩ := h
      obtain ⟨c2, r2, hline, hc2⟩ := subbed_line_head nm e l c r hl hc he
      show goodStart ((if lineMatches nm l = true then preMarker l ++ e else l) ::
        subExtinf nm e (l2 :: rest))
      unfold goodStart
      rw [hline, List.dropWhile_cons_of_neg (by simp [allWs, hc2])]
      exact ⟨c2, r2, rfl, hc2⟩

theorem subUrl_goodStart (nm e u : List Char) (he : ∃ t, e = '#' :: t) :
    ∀ K : List Line, goodStart K → goodStart (subUrl nm e u K)
  | [], h => h
  | [l], h => h
  | [l1, l2], h => h
  | l1 :: l2 :: l3 :: rest, h => by
    by_cases hws : allWs l1 = true
    · have hm : lineMatches nm l1 = false := allWs_lineMatches_false nm l1 hws
      have heq : subUrl nm e u (l1 :: l2 :: l3 :: rest)
          = l1 :: subUrl nm e u (l2 :: l3 :: rest) := by
        show (if lineMatches nm l1 = true then _ else _) = _
        rw [hm]
        simp
      rw [heq]
      have hgs : goodStart (l2 :: l3 :: rest) := by
        unfold goodStart at h ⊢
        rwa [List.dropWhile_cons_of_pos hws] at h
      have ih := subUrl_goodStart nm e u he (l2 :: l3 :: rest) hgs
      unfold goodStart at ih ⊢
      rwa [List.dropWhile_cons_of_pos hws]
    · unfold goodStart at h
      rw [List.dropWhile_cons_of_neg hws] at h
      obtain ⟨c, r, hl, hc⟩ := h
      by_cases hm : lineMatches nm l1 = true
      · have heq : subUrl nm e u (l1 :: l2 :: l3 :: rest)
            = (preMarker l1 ++ e) :: u :: subUrl nm e u (l3 :: rest) := by
          show (if lineMatches nm l1 = true then _ else _) = _
          rw [hm]
          simp
        rw [heq]
        obtain ⟨c2, r2, hline, hc2⟩ := subbed_line_head nm e l1 c r hl hc he
        rw [if_pos hm] at hline
        unfold goodStart
        rw [hline, List.dropWhile_cons_of_neg (by simp [allWs, hc2])]
        exact ⟨c2, r2, rfl, hc2⟩
      · have heq : subUrl nm e u (l1 :: l2 :: l3 :: rest)
            = l1 :: subUrl nm e u (l2 :: l3 :: rest) := by
          show (if lineMatches nm l1 = true then _ else _) = _
          rw [if_neg hm]
        rw [heq]
        unfold goodStart
        rw [hl, List.dropWhile_cons_of_neg (by rw [hl] at hws; simpa using hws)]
        exact ⟨c, r, rfl, hc⟩

theorem append_branch_goodStart (cnt e url : List Char) (he : ∃ t, e = '#' :: t)
    (h : goodStart (splitLines cnt)) :
    goodStart (splitLines (cnt ++ '\n' :: '\n' :: (e ++ '\n' :: url))) := by
  rw [splitLines_append_newline]
  have h2 : splitLines ('\n' :: (e ++ '\n' :: url))
      = [] :: splitLines (e ++ '\n' :: url) := by
    simp [splitLines]
  rw [h2]
  unfold goodStart at h ⊢
  rw [List.dropWhile_append]
  cases hdw : List.dropWhile allWs (splitLines cnt) with
  | nil =>
    simp only [List.isEmpty_nil, if_true]
    rw [List.dropWhile_cons_of_pos (by simp [allWs] : allWs ([] : Line) = true)]
    obtain ⟨t, rfl⟩ := he
    obtain ⟨A, B, hAB⟩ := splitLines_cons_of_ne '#' (t ++ '\n' :: url) (by decide)
    rw [List.cons_append, hAB,
      List.dropWhile_cons_of_neg (by simp [allWs, pyWS])]
    exact ⟨'#', A, rfl, by decide⟩
  | cons l t =>
    rw [hdw] at h
    have hne : ¬(l :: t).isEmpty = true := by simp
    rw [if_neg hne, List.cons_append]
    exact h

theorem mergeOne_goodStartC (cnt : List Char) (r : ChannelResult)
    (h : goodStart (splitLines cnt)) :
    goodStart (splitLines (mergeOne cnt r)) := by
  have he := extinfLineFor_head (r.channel_id.getD []) (r.logo.getD []) r.name
  unfold mergeOne
  by_cases hp : hasPattern r.name (splitLines cnt) = true
  · rw [if_pos hp]
    have g2 := subExtinf_goodStart r.name _ he (splitLines cnt) h
    have g3 := goodStart_splitLines_joinLines _ g2
    have g4 := subUrl_goodStart r.name _ (r.url.getD []) he _ g3
    exact goodStart_splitLines_joinLines _ g4
  · rw [if_neg hp]
    exact append_branch_goodStart cnt _ (r.url.getD []) he h

theorem foldl_merge_goodStartC (results : List ChannelResult) :
    ∀ cnt : List Char, goodStart (splitLines cnt) →
      goodStart (splitLines (results.foldl
        (fun c r => if r.success then mergeOne c r else c) cnt)) := by
  induction results with
  | nil => exact fun cnt h => h
  | cons r rest ih =>
    intro cnt h
    simp only [List.foldl_cons]
    by_cases hs : r.success = true
    · rw [if_pos hs]
      exact ih _ (mergeOne_goodStartC cnt r h)
    · rw [if_neg hs]
      exact ih _ h

theorem cleanLines_subset :
    ∀ (L : List Line) (seen : List (List Char)) (cur : Option (List Char)),
      ∀ l ∈ cleanLines L seen cur, l ∈ L
  | [], _, _ => by simp [cleanLines]
  | l :: rest, seen, cur => by
    intro x hx
    simp only [cleanLines] at hx
    split at hx
    · split at hx
      · split at hx
        · exact List.mem_cons_of_mem _ (cleanLines_subset rest seen _ x hx)
        · rcases List.mem_cons.mp hx with rfl | hx
          · simp
          · exact List.mem_cons_of_mem _ (cleanLines_subset rest _ _ x hx)
      · rcases List.mem_cons.mp hx with rfl | hx
        · simp
        · exact List.mem_cons_of_mem _ (cleanLines_subset rest seen cur x hx)
    · split at hx
      · split at hx
        · exact List.mem_cons_of_mem _ (cleanLines_subset rest seen none x hx)
        · rcases List.mem_cons.mp hx with rfl | hx
          · simp
          · exact List.mem_cons_of_mem _ (cleanLines_subset rest seen none x hx)
      · rcases List.mem_cons.mp hx with rfl | hx
        · simp
        · exact List.mem_cons_of_mem _ (cleanLines_subset rest seen cur x hx)

/-! ## Claims C2 and C8: the written document -/

/-- Claim C2: whatever the pre-existing document content (or its absence)
and whatever channel results are merged in, the document written by
`update_m3u_file` carries pairwise-distinct trailing channel-name labels on
its descriptor lines: each channel name appears on at most one
descriptor/url pair. -/
theorem c2_unique_channel_labels (existing : Option (List Char))
    (results : List ChannelResult) :
    ((splitLines (update_m3u_file existing results)).filterMap extinfLabel).Nodup := by
  unfold update_m3u_file
  set content := existing.getD (chars "#EXTM3U\n") with hcontent
  set newContent := pyStrip (joinLines (cleanLines (splitLines content) [] none))
    with hnew
  set merged := results.foldl (fun c r => if r.success then mergeOne c r else c)
    newContent with hmerged
  set M := cleanLines (splitLines merged) [] none with hM
  set fc := pyStrip (joinLines M) with hfc
  have hgood_new : goodStart (splitLines newContent) :=
    goodStart_splitLines_pyStrip _
  have hgood_merged : goodStart (splitLines merged) :=
    foldl_merge_goodStartC results newContent hgood_new
  have hnodup : (M.filterMap extinfLabel).Nodup :=
    (cleanLines_labels (splitLines merged) [] none).1
  have hgsM : goodStart M := cleanLines_goodStart _ hgood_merged
  have hnlM : ∀ l ∈ M, '\n' ∉ l := fun l hl =>
    newline_not_mem_splitLines merged l
      (cleanLines_subset (splitLines merged) [] none l hl)
  have hsub := pyStrip_joinLines_labels M hnlM hgsM
  have hfc_nodup : ((splitLines fc).filterMap extinfLabel).Nodup :=
    hsub.nodup hnodup
  by_cases hpre : (chars "#EXTM3U").isPrefixOf fc = true
  · rw [if_pos hpre]
    exact hfc_nodup
  · rw [if_neg hpre]
    have hsplit : chars "#EXTM3U\n" ++ fc = chars "#EXTM3U" ++ '\n' :: fc := by
      have : chars "#EXTM3U\n" = chars "#EXTM3U" ++ ['\n'] := by decide
      rw [this, List.append_assoc]
      rfl
    rw [hsplit, splitLines_append_newline,
      splitLines_of_no_newline (chars "#EXTM3U") (by decide)]
    have hlab : extinfLabel (chars "#EXTM3U") = none := by decide
    simp only [List.singleton_append, List.filterMap_cons, hlab]
    exact hfc_nodup

/-- Claim C8: the document written by `update_m3u_file` always begins with
the fixed header marker `#EXTM3U`, for every pre-existing content (or a
missing file) and every set of results. -/
theorem c8_header_always_present (existing : Option (List Char))
    (results : List ChannelResult) :
    (chars "#EXTM3U").isPrefixOf (update_m3u_file existing results) = true := by
  unfold update_m3u_file
  set fc := pyStrip (joinLines (cleanLines (splitLines
    (results.foldl (fun c r => if r.success then mergeOne c r else c)
      (pyStrip (joinLines (cleanLines (splitLines
        (existing.getD (chars "#EXTM3U\n"))) [] none))))) [] none)) with hfc
  by_cases hpre : (chars "#EXTM3U").isPrefixOf fc = true
  · rwa [if_pos hpre]
  · rw [if_neg hpre]
    rw [List.isPrefixOf_iff_prefix]
    have : chars "#EXTM3U\n" = chars "#EXTM3U" ++ ['\n'] := by decide
    rw [this, List.append_assoc]
    exact List.prefix_append _ _
